import Mathlib

/-!
Verification of the `pdinklag/code` bitwise integer codec library.

The development shallowly embeds the library's codecs over bit streams
modelled as `List Bool`: a `BitSink` is modelled by list concatenation
(each `write` appends bits in order, multi-bit writes append the low bits
of the written word least-significant-bit first), and a `BitSource` is
modelled by reading from the front of the list (a multi-bit read packs the
bits read first into the low positions of the result, matching the
sink/source pairing contract).  Machine integers (`uintmax_t`) are
modelled as `Nat`; truncation is written explicitly where the source
performs a narrowing cast.
-/

namespace CodePdk

/-- `UINTMAX_MAX` for the 64-bit `uintmax_t` used throughout the library. -/
def UINTMAX : Nat := 2 ^ 64 - 1

/-- The low `n` bits of `x`, least-significant bit first.  This is the bit
sequence appended by a sink's multi-bit `write(x, n)`. -/
def lowBits : Nat → Nat → List Bool
  | 0, _ => []
  | n + 1, x => (x % 2 == 1) :: lowBits n (x / 2)

/-- The value obtained by packing a bit sequence least-significant-bit
first; this is what a source's multi-bit `read(n)` returns. -/
def fromBits : List Bool → Nat
  | [] => 0
  | b :: s => (if b then 1 else 0) + 2 * fromBits s

/-- One multi-bit read from the front of a bit stream: `read(n)` extracts
the next `n` bits as an unsigned integer. -/
def readBits (n : Nat) (s : List Bool) : Option (Nat × List Bool) :=
  if n ≤ s.length then some (fromBits (s.take n), s.drop n) else none

/-- Fuel-bounded helper for `bit_width`; the first argument only bounds the
number of halving steps, and `x` steps always suffice. -/
def bitWidthF : Nat → Nat → Nat
  | _, 0 => 0
  | 0, _ + 1 => 0
  | f + 1, x + 1 => bitWidthF f ((x + 1) / 2) + 1

/-- `std::bit_width(x)`: the number of bits needed to represent `x`
(`0` for `x = 0`). -/
def bit_width (x : Nat) : Nat := bitWidthF x x

/-- `Binary::encode(sink, x, bits)`: writes the low `bits` bits of `x`
through the sink's multi-bit write. -/
def Binary.encode (x bits : Nat) : List Bool := lowBits bits x

/-- `Binary::decode(src, bits)`: reads `bits` bits back from the source. -/
def Binary.decode (bits : Nat) (s : List Bool) : Option (Nat × List Bool) :=
  readBits bits s

/-- Fuel-bounded helper for `Unary::encode`; each loop iteration writes a
full 64-bit all-ones word, and `x` iterations always suffice. -/
def unaryWriteF : Nat → Nat → List Bool
  | 0, x => List.replicate x true ++ [false]
  | f + 1, x =>
    if 64 ≤ x then List.replicate 64 true ++ unaryWriteF f (x - 64)
    else List.replicate x true ++ [false]

/-- `Unary::encode(sink, x)`: writes `x` one-bits (in chunks of at most the
word width, each chunk a multi-bit write of an all-ones word) followed by a
single zero bit. -/
def Unary.encode (x : Nat) : List Bool := unaryWriteF x x

/-- `Unary::decode(src)`: counts one-bits until the first zero bit. -/
def Unary.decode : List Bool → Option (Nat × List Bool)
  | [] => none
  | false :: s => some (0, s)
  | true :: s =>
    match Unary.decode s with
    | some (x, r) => some (x + 1, r)
    | none => none

/- ### Basic lemmas on the bit-stream primitives -/

theorem lowBits_length (n x : Nat) : (lowBits n x).length = n := by
  induction n generalizing x with
  | zero => rfl
  | succ n ih => simp [lowBits, ih]

theorem fromBits_lowBits (n x : Nat) : fromBits (lowBits n x) = x % 2 ^ n := by
  induction n generalizing x with
  | zero => simp [lowBits, fromBits, Nat.mod_one]
  | succ n ih =>
    simp only [lowBits, fromBits, ih]
    rw [pow_succ', Nat.mod_mul]
    rcases Nat.mod_two_eq_zero_or_one x with h | h <;> simp [h]

theorem fromBits_lt (s : List Bool) : fromBits s < 2 ^ s.length := by
  induction s with
  | nil => simp [fromBits]
  | cons b s ih =>
    have hb : (if b then 1 else 0) ≤ 1 := by cases b <;> simp
    simp only [fromBits, List.length_cons, pow_succ]
    omega

theorem lowBits_fromBits (s : List Bool) : lowBits s.length (fromBits s) = s := by
  induction s with
  | nil => rfl
  | cons b s ih =>
    simp only [List.length_cons, lowBits, fromBits]
    have h1 : ((if b then 1 else 0) + 2 * fromBits s) % 2 = (if b then 1 else 0) := by
      cases b <;> simp <;> omega
    have h2 : ((if b then 1 else 0) + 2 * fromBits s) / 2 = fromBits s := by
      cases b <;> simp <;> omega
    rw [h1, h2, ih]
    cases b <;> simp

theorem readBits_append (s rest : List Bool) :
    readBits s.length (s ++ rest) = some (fromBits s, rest) := by
  simp [readBits, List.take_append, List.drop_append]

theorem Binary.decode_encode_bits (x bits : Nat) (rest : List Bool) :
    Binary.decode bits (Binary.encode x bits ++ rest) = some (x % 2 ^ bits, rest) := by
  have h := readBits_append (lowBits bits x) rest
  rw [lowBits_length] at h
  rw [Binary.decode, Binary.encode, h, fromBits_lowBits]

theorem unaryWriteF_eq (f : Nat) :
    ∀ x, x ≤ f → unaryWriteF f x = List.replicate x true ++ [false] := by
  induction f with
  | zero =>
    intro x hx
    rfl
  | succ f ih =>
    intro x hx
    rw [unaryWriteF]
    split
    · next h =>
      rw [ih (x - 64) (by omega)]
      rw [← List.append_assoc, ← List.replicate_add]
      congr 2
      omega
    · rfl

theorem Unary.encode_eq_replicate (x : Nat) :
    Unary.encode x = List.replicate x true ++ [false] :=
  unaryWriteF_eq x x le_rfl

theorem Unary.encode_length_unary (x : Nat) : (Unary.encode x).length = x + 1 := by
  rw [Unary.encode_eq_replicate]; simp

theorem Unary.decode_encode_unary (x : Nat) (rest : List Bool) :
    Unary.decode (Unary.encode x ++ rest) = some (x, rest) := by
  rw [Unary.encode_eq_replicate]
  induction x with
  | zero => simp [Unary.decode]
  | succ n ih =>
    rw [List.replicate_succ]
    simp only [List.cons_append, Unary.decode, List.append_eq, ih]

/- ### `bit_width` lemmas -/

theorem bitWidthF_le_iff (f : Nat) :
    ∀ x n, x ≤ f → (bitWidthF f x ≤ n ↔ x < 2 ^ n) := by
  induction f with
  | zero =>
    intro x n hx
    interval_cases x
    simp [bitWidthF, Nat.two_pow_pos]
  | succ f ih =>
    intro x n hx
    match x with
    | 0 => simp [bitWidthF, Nat.two_pow_pos]
    | x + 1 =>
      rw [show bitWidthF (f + 1) (x + 1) = bitWidthF f ((x + 1) / 2) + 1 from rfl]
      match n with
      | 0 =>
        simp only [pow_zero]
        constructor
        · intro h; omega
        · intro h; omega
      | n + 1 =>
        rw [Nat.add_le_add_iff_right, ih ((x + 1) / 2) n (by omega)]
        rw [pow_succ]
        omega

theorem bit_width_le_iff (x n : Nat) : bit_width x ≤ n ↔ x < 2 ^ n :=
  bitWidthF_le_iff x x n le_rfl

theorem lt_two_pow_bit_width (x : Nat) : x < 2 ^ bit_width x :=
  (bit_width_le_iff x (bit_width x)).mp le_rfl

theorem bit_width_pos {x : Nat} (hx : 1 ≤ x) : 1 ≤ bit_width x := by
  by_contra hb
  push_neg at hb
  have h0 : bit_width x ≤ 0 := by omega
  have h1 := (bit_width_le_iff x 0).mp h0
  simp at h1
  omega

theorem two_pow_le_of_bit_width {x : Nat} (hx : 1 ≤ x) :
    2 ^ (bit_width x - 1) ≤ x := by
  by_contra h
  push_neg at h
  have h2 := (bit_width_le_iff x (bit_width x - 1)).mpr h
  have h3 := bit_width_pos hx
  omega

/- ### Bitwise-or of a shifted word with a small remainder -/

theorem shiftLeft_lor_eq_add {r p : Nat} (a : Nat) (hr : r < 2 ^ p) :
    (a <<< p) ||| r = 2 ^ p * a + r := by
  apply Nat.eq_of_testBit_eq
  intro j
  rw [Nat.testBit_lor, Nat.testBit_shiftLeft, Nat.testBit_mul_pow_two_add a hr j]
  by_cases hj : j < p
  · simp [hj, Nat.not_le_of_lt hj]
  · have hge : p ≤ j := Nat.le_of_not_lt hj
    have hr2 : r < 2 ^ j := lt_of_lt_of_le hr (Nat.pow_le_pow_right (by omega) hge)
    rw [Nat.testBit_lt_two_pow hr2]
    simp [hj, hge]

theorem one_shiftLeft_lor_eq_add {r p : Nat} (hr : r < 2 ^ p) :
    (1 <<< p) ||| r = 2 ^ p + r := by
  rw [shiftLeft_lor_eq_add 1 hr]
  ring_nf

/- ### Elias-gamma codec (`elias_gamma.hpp`) -/

/-- `EliasGamma::encode(sink, x)`: with `m = bit_width(x) - 1`, writes
`Unary(m)` and then, if `m` is nonzero, `Binary(x, m)` (the low `m` bits of
`x`, cutting off the leading 1-bit).  Undefined for `x = 0`. -/
def EliasGamma.encode (x : Nat) : List Bool :=
  let m := bit_width x - 1
  Unary.encode m ++ (if m ≠ 0 then Binary.encode x m else [])

/-- `EliasGamma::decode(src)`: reads `m = Unary::decode(src)`; returns `1`
when `m = 0` and `set_bit(m) | Binary::decode(src, m)` otherwise. -/
def EliasGamma.decode (s : List Bool) : Option (Nat × List Bool) :=
  match Unary.decode s with
  | some (m, s1) =>
    if m ≠ 0 then
      match Binary.decode m s1 with
      | some (t, s2) => some ((1 <<< m) ||| t, s2)
      | none => none
    else some (1, s1)
  | none => none

theorem EliasGamma.encode_eq_parts (x : Nat) :
    EliasGamma.encode x
      = Unary.encode (bit_width x - 1) ++ lowBits (bit_width x - 1) x := by
  rw [EliasGamma.encode]
  by_cases h : bit_width x - 1 = 0
  · simp [h, Binary.encode, lowBits]
  · simp [h, Binary.encode]

theorem EliasGamma.encode_length_gamma {x : Nat} (hx : 1 ≤ x) :
    (EliasGamma.encode x).length = 2 * bit_width x - 1 := by
  rw [EliasGamma.encode_eq_parts]
  have h := bit_width_pos hx
  simp [Unary.encode_length_unary, lowBits_length]
  omega

theorem EliasGamma.decode_encode_gamma {x : Nat} (hx : 1 ≤ x) (rest : List Bool) :
    EliasGamma.decode (EliasGamma.encode x ++ rest) = some (x, rest) := by
  rw [EliasGamma.encode_eq_parts, List.append_assoc, EliasGamma.decode,
    Unary.decode_encode_unary]
  by_cases h : bit_width x - 1 = 0
  · have hbw : bit_width x = 1 := by
      have := bit_width_pos hx
      omega
    have hlt : x < 2 ^ 1 := by
      have := lt_two_pow_bit_width x
      rwa [hbw] at this
    have hx1 : x = 1 := by omega
    subst hx1
    have hb1 : bit_width 1 = 1 := by decide
    simp [h, hb1, lowBits]
  · simp only [h, if_true, ne_eq, not_false_iff]
    have hdec := Binary.decode_encode_bits x (bit_width x - 1) rest
    rw [Binary.encode] at hdec
    simp only [hdec]
    have hlo := two_pow_le_of_bit_width hx
    have hhi := lt_two_pow_bit_width x
    have hbw := bit_width_pos hx
    have hsplit : 2 ^ (bit_width x - 1) + x % 2 ^ (bit_width x - 1) = x := by
      have h2 : 2 ^ (bit_width x - 1) * 2 = 2 ^ bit_width x := by
        rw [← pow_succ]
        congr 1
        omega
      have hdm := Nat.div_add_mod x (2 ^ (bit_width x - 1))
      have hq : x / 2 ^ (bit_width x - 1) = 1 := by
        apply Nat.div_eq_of_lt_le
        · simpa using hlo
        · omega
      rw [hq] at hdm
      omega
    rw [one_shiftLeft_lor_eq_add (Nat.mod_lt x (Nat.two_pow_pos _)), hsplit]

/- ### Elias-delta codec -/

/-- Modelled from the spec: the file `elias_delta.hpp` is not present in the
sources (only its test suite and the spec describe it).  Per the spec, with
`b = bitlen(x)` for `x ≥ 1`, `encode(sink, x)` writes `γ(b)` followed by the
low `b − 1` bits of `x`. -/
def EliasDelta.encode (x : Nat) : List Bool :=
  EliasGamma.encode (bit_width x) ++ Binary.encode x (bit_width x - 1)

/-- Modelled from the spec: `decode(src)` reads `b = γ::decode(src)`;
returns `1` if `b = 1` and otherwise `(1 << (b − 1)) | Binary::decode(src, b − 1)`. -/
def EliasDelta.decode (s : List Bool) : Option (Nat × List Bool) :=
  match EliasGamma.decode s with
  | some (b, s1) =>
    if b = 1 then some (1, s1)
    else
      match Binary.decode (b - 1) s1 with
      | some (t, s2) => some ((1 <<< (b - 1)) ||| t, s2)
      | none => none
  | none => none

theorem EliasDelta.decode_encode_delta {x : Nat} (hx : 1 ≤ x) (rest : List Bool) :
    EliasDelta.decode (EliasDelta.encode x ++ rest) = some (x, rest) := by
  rw [EliasDelta.encode, List.append_assoc, EliasDelta.decode,
    EliasGamma.decode_encode_gamma (bit_width_pos hx)]
  by_cases h : bit_width x = 1
  · have hlt : x < 2 ^ 1 := by
      have := lt_two_pow_bit_width x
      rwa [h] at this
    have hx1 : x = 1 := by omega
    subst hx1
    have hb1 : bit_width 1 = 1 := by decide
    simp [h, hb1, Binary.encode, lowBits]
  · simp only [h, if_false]
    have hdec := Binary.decode_encode_bits x (bit_width x - 1) rest
    rw [Binary.encode] at hdec
    rw [Binary.encode]
    simp only [hdec]
    have hlo := two_pow_le_of_bit_width hx
    have hhi := lt_two_pow_bit_width x
    have hbw := bit_width_pos hx
    have hsplit : 2 ^ (bit_width x - 1) + x % 2 ^ (bit_width x - 1) = x := by
      have h2 : 2 ^ (bit_width x - 1) * 2 = 2 ^ bit_width x := by
        rw [← pow_succ]
        congr 1
        omega
      have hdm := Nat.div_add_mod x (2 ^ (bit_width x - 1))
      have hq : x / 2 ^ (bit_width x - 1) = 1 := by
        apply Nat.div_eq_of_lt_le
        · simpa using hlo
        · omega
      rw [hq] at hdm
      omega
    rw [one_shiftLeft_lor_eq_add (Nat.mod_lt x (Nat.two_pow_pos _)), hsplit]

/- ### Rice codec (`rice.hpp`) -/

/-- `Rice::encode(sink, x, p)`: writes `γ(q + 1)` for the quotient
`q = x >> p`, then the low `p` bits of `x` (the Golomb remainder). -/
def Rice.encode (x p : Nat) : List Bool :=
  EliasGamma.encode ((x >>> p) + 1) ++ Binary.encode x p

/-- `Rice::decode(src, p)`: reads `q = γ::decode(src) − 1` and the `p`-bit
remainder, returning `(q << p) | remainder`. -/
def Rice.decode (p : Nat) (s : List Bool) : Option (Nat × List Bool) :=
  match EliasGamma.decode s with
  | some (g, s1) =>
    match Binary.decode p s1 with
    | some (r, s2) => some (((g - 1) <<< p) ||| r, s2)
    | none => none
  | none => none

theorem Rice.gamma_part (x p : Nat) (rest : List Bool) :
    EliasGamma.decode (Rice.encode x p ++ rest)
      = some ((x >>> p) + 1, lowBits p x ++ rest) := by
  rw [Rice.encode, Binary.encode, List.append_assoc]
  exact EliasGamma.decode_encode_gamma (Nat.le_add_left 1 _) _

theorem Rice.decode_encode_rice (x p : Nat) (rest : List Bool) :
    Rice.decode p (Rice.encode x p ++ rest) = some (x, rest) := by
  rw [Rice.decode, Rice.gamma_part]
  have hdec := Binary.decode_encode_bits x p rest
  rw [Binary.encode] at hdec
  simp only [hdec, Nat.add_sub_cancel]
  rw [Nat.shiftRight_eq_div_pow,
    shiftLeft_lor_eq_add (x / 2 ^ p) (Nat.mod_lt x (Nat.two_pow_pos p))]
  rw [Nat.div_add_mod]

/- ### Vbyte codec (`vbyte.hpp`) -/

/-- Fuel-bounded helper for `Vbyte::encode`: the loop
`while (bits > b) { write 0; write(x, b); x >>= b; bits -= b; }` followed by
`write 1; write(x, b)`.  For block size `b ≥ 1`, `bits` iterations always
suffice. -/
def vbyteEncodeF (b : Nat) : Nat → Nat → Nat → List Bool
  | 0, x, _ => true :: lowBits b x
  | f + 1, x, bits =>
    if b < bits then false :: (lowBits b x ++ vbyteEncodeF b f (x >>> b) (bits - b))
    else true :: lowBits b x

/-- `Vbyte::encode(sink, x, b)`: starting from `bits = bit_width(x)`, writes
a 0 flag and a `b`-bit block for every block below the one holding the
highest set bit, then a 1 flag and the final block. -/
def Vbyte.encode (x b : Nat) : List Bool :=
  vbyteEncodeF b (bit_width x) x (bit_width x)

/-- Fuel-bounded helper for `Vbyte::decode`: the loop reads a flag bit, then
a `b`-bit block OR-ed into the accumulator at the current shift; a set flag
stops the loop.  The stream length bounds the number of iterations. -/
def vbyteDecodeF (b : Nat) : Nat → Nat → Nat → List Bool → Option (Nat × List Bool)
  | 0, _, _, _ => none
  | _ + 1, _, _, [] => none
  | f + 1, shift, acc, flag :: s =>
    match readBits b s with
    | some (blk, s1) =>
      if flag then some (acc ||| (blk <<< shift), s1)
      else vbyteDecodeF b f (shift + b) (acc ||| (blk <<< shift)) s1
    | none => none

/-- `Vbyte::decode(src, b)`. -/
def Vbyte.decode (b : Nat) (s : List Bool) : Option (Nat × List Bool) :=
  vbyteDecodeF b s.length 0 0 s

/-- The bit layout claimed by the spec for Vbyte: `x` split into `b`-bit
blocks least-significant first, a 0 flag before every block except the
last, a 1 flag before the last block (the one holding the highest set bit,
or the single zero block for `x = 0`). -/
def vbyteLayout (x b : Nat) : List Bool :=
  (List.range ((bit_width x - 1) / b)).flatMap
      (fun i => false :: lowBits b (x >>> (b * i)))
    ++ (true :: lowBits b (x >>> (b * ((bit_width x - 1) / b))))

theorem bit_width_shiftRight (x b : Nat) :
    bit_width (x >>> b) = bit_width x - b := by
  have key : ∀ n, bit_width (x >>> b) ≤ n ↔ bit_width x - b ≤ n := by
    intro n
    rw [bit_width_le_iff, Nat.shiftRight_eq_div_pow,
      Nat.div_lt_iff_lt_mul (Nat.two_pow_pos b), ← pow_add]
    rw [← bit_width_le_iff]
    omega
  exact Nat.le_antisymm ((key _).mpr le_rfl) ((key _).mp le_rfl)

theorem vbyteLayout_step {x b : Nat} (hb : 1 ≤ b) (h : b < bit_width x) :
    vbyteLayout x b
      = false :: (lowBits b x ++ vbyteLayout (x >>> b) b) := by
  have hk : (bit_width x - 1) / b = (bit_width (x >>> b) - 1) / b + 1 := by
    rw [bit_width_shiftRight]
    rw [Nat.div_eq (bit_width x - 1) b]
    rw [if_pos ⟨by omega, by omega⟩]
    congr 2
    omega
  have hshift : ∀ i, x >>> (b * Nat.succ i) = (x >>> b) >>> (b * i) := by
    intro i
    rw [Nat.shiftRight_eq_div_pow, Nat.shiftRight_eq_div_pow,
      Nat.shiftRight_eq_div_pow, Nat.div_div_eq_div_mul, ← pow_add]
    congr 2
    rw [Nat.succ_eq_add_one]
    ring
  rw [vbyteLayout, vbyteLayout, hk, List.range_succ_eq_map, List.flatMap_cons,
    List.flatMap_map]
  have hfun : (fun i => false :: lowBits b (x >>> (b * Nat.succ i)))
      = fun i => false :: lowBits b ((x >>> b) >>> (b * i)) := by
    funext i
    rw [hshift]
  rw [hfun, hshift ((bit_width (x >>> b) - 1) / b)]
  simp [List.append_assoc]

theorem vbyteEncodeF_eq_layout {b : Nat} (hb : 1 ≤ b) :
    ∀ f x, bit_width x ≤ b * f + b →
      vbyteEncodeF b f x (bit_width x) = vbyteLayout x b := by
  intro f
  induction f with
  | zero =>
    intro x hf
    rw [vbyteEncodeF, vbyteLayout]
    have hk : (bit_width x - 1) / b = 0 := Nat.div_eq_of_lt (by omega)
    rw [hk]
    simp
  | succ f ih =>
    intro x hf
    rw [vbyteEncodeF]
    by_cases h : b < bit_width x
    · rw [if_pos h]
      have hbw := bit_width_shiftRight x b
      have hmul : b * (f + 1) = b * f + b := by ring
      rw [← hbw, ih (x >>> b) (by omega), vbyteLayout_step hb h]
    · rw [if_neg h, vbyteLayout]
      have hk : (bit_width x - 1) / b = 0 := Nat.div_eq_of_lt (by omega)
      rw [hk]
      simp

theorem Vbyte.encode_eq_layout {x b : Nat} (hb : 1 ≤ b) :
    Vbyte.encode x b = vbyteLayout x b := by
  rw [Vbyte.encode]
  apply vbyteEncodeF_eq_layout hb
  have : bit_width x ≤ b * bit_width x := Nat.le_mul_of_pos_left _ hb
  omega

theorem vbyteDecodeF_layout {b : Nat} (hb : 1 ≤ b) :
    ∀ f x shift acc rest, (bit_width x - 1) / b < f →
      vbyteDecodeF b f shift acc (vbyteLayout x b ++ rest)
        = some (acc ||| (x <<< shift), rest) := by
  intro f
  induction f with
  | zero => intro x shift acc rest hf; exact absurd hf (Nat.not_lt_zero _)
  | succ f ih =>
    intro x shift acc rest hf
    by_cases h : b < bit_width x
    · rw [vbyteLayout_step hb h, List.cons_append, List.append_assoc]
      have hread := readBits_append (lowBits b x) (vbyteLayout (x >>> b) b ++ rest)
      rw [lowBits_length, fromBits_lowBits] at hread
      rw [vbyteDecodeF]
      simp only [hread, Bool.false_eq_true, if_false]
      have hfuel : (bit_width (x >>> b) - 1) / b < f := by
        rw [bit_width_shiftRight]
        have hsub : bit_width x - 1 - b = bit_width x - b - 1 := by omega
        have hstep : (bit_width x - 1) / b = (bit_width x - b - 1) / b + 1 := by
          rw [Nat.div_eq (bit_width x - 1) b, if_pos ⟨by omega, by omega⟩, hsub]
        omega
      rw [ih (x >>> b) (shift + b) (acc ||| (x % 2 ^ b) <<< shift) rest hfuel]
      congr 2
      rw [Nat.lor_assoc]
      congr 1
      rw [Nat.lor_comm,
        shiftLeft_lor_eq_add (x >>> b)
          (by
            rw [Nat.shiftLeft_eq, pow_add]
            have h1 : x % 2 ^ b < 2 ^ b := Nat.mod_lt x (Nat.two_pow_pos b)
            have h2 : (0 : Nat) < 2 ^ shift := Nat.two_pow_pos shift
            nlinarith)]
      rw [Nat.shiftLeft_eq, Nat.shiftLeft_eq, Nat.shiftRight_eq_div_pow, pow_add]
      have hdm := Nat.div_add_mod x (2 ^ b)
      conv_rhs => rw [← hdm]
      ring
    · rw [vbyteLayout]
      have hk : (bit_width x - 1) / b = 0 := by
        apply Nat.div_eq_of_lt
        omega
      rw [hk]
      simp only [List.range_zero, List.flatMap_nil, List.nil_append, Nat.mul_zero,
        Nat.shiftRight_zero, List.cons_append]
      rw [vbyteDecodeF]
      have hread := readBits_append (lowBits b x) rest
      rw [lowBits_length, fromBits_lowBits] at hread
      simp only [hread, if_true]
      have hxlt : x < 2 ^ b := by
        have h2 := lt_two_pow_bit_width x
        calc x < 2 ^ bit_width x := h2
          _ ≤ 2 ^ b := Nat.pow_le_pow_right (by omega) (by omega)
      rw [Nat.mod_eq_of_lt hxlt]

theorem flatMapRange_length (g : Nat → List Bool) (c : Nat)
    (hg : ∀ i, (g i).length = c) :
    ∀ k, ((List.range k).flatMap g).length = k * c := by
  intro k
  induction k with
  | zero => simp
  | succ k ih =>
    rw [List.range_succ, List.flatMap_append, List.length_append, ih]
    simp [hg]
    ring

theorem Vbyte.decode_encode_vbyte {x b : Nat} (hb : 1 ≤ b) (rest : List Bool) :
    Vbyte.decode b (Vbyte.encode x b ++ rest) = some (x, rest) := by
  rw [Vbyte.decode, Vbyte.encode_eq_layout hb]
  have hlen : (bit_width x - 1) / b < (vbyteLayout x b ++ rest).length := by
    rw [List.length_append, vbyteLayout, List.length_append, List.length_cons]
    rw [flatMapRange_length _ (b + 1) (by intro i; simp [lowBits_length])]
    have h1 : (bit_width x - 1) / b * (b + 1) ≥ (bit_width x - 1) / b := by
      nlinarith [Nat.zero_le ((bit_width x - 1) / b)]
    omega
  rw [vbyteDecodeF_layout hb _ x 0 0 rest hlen]
  simp

/- ### Universe and Range (`universe.hpp`, `range.hpp`) -/

/-- `code::Universe`: an interval with its worst-case entropy, all fields
set at construction. -/
structure Universe where
  min : Nat
  max : Nat
  entropy : Nat
deriving DecidableEq, Repr

/-- `Universe::wc_entropy(min, max) = std::max(1, bit_width(max - min))`. -/
def wc_entropy (min max : Nat) : Nat := Nat.max 1 (bit_width (max - min))

/-- The public two-argument constructor `Universe(min, max)`. -/
def Universe.ofMinMax (min max : Nat) : Universe :=
  ⟨min, max, wc_entropy min max⟩

/-- `Universe::umax() = Universe(0, UINTMAX_MAX)`. -/
def Universe.umax : Universe := Universe.ofMinMax 0 UINTMAX

/-- `Universe::at_least(min) = Universe(min, UINTMAX_MAX)`. -/
def Universe.at_least (min : Nat) : Universe := Universe.ofMinMax min UINTMAX

/-- `Universe::rel(abs) = abs - min`. -/
def Universe.rel (u : Universe) (x : Nat) : Nat := x - u.min

/-- `Universe::abs(rel) = min + rel`. -/
def Universe.abs (u : Universe) (r : Nat) : Nat := u.min + r

/-- `code::Range`: a mutable min/max accumulator. -/
structure Range where
  min : Nat
  max : Nat
deriving DecidableEq, Repr

/-- The default `Range()`: `min = UINTMAX_MAX`, `max = 0`. -/
def Range.empty : Range := ⟨UINTMAX, 0⟩

/-- `Range::contain(v)`. -/
def Range.contain (r : Range) (v : Nat) : Range :=
  ⟨Nat.min r.min v, Nat.max r.max v⟩

/- ### Universe-relative variants of the codecs -/

/-- `EliasDelta::encode(sink, x, u)`: encodes `u.rel(x) + 1` (mirrors the
gamma universe variant, per the spec). -/
def EliasDelta.encodeU (u : Universe) (x : Nat) : List Bool :=
  EliasDelta.encode (u.rel x + 1)

/-- `EliasDelta::decode(src, u)`: returns `u.abs(decode(src)) - 1`. -/
def EliasDelta.decodeU (u : Universe) (s : List Bool) : Option (Nat × List Bool) :=
  match EliasDelta.decode s with
  | some (d, s1) => some (u.abs d - 1, s1)
  | none => none

/-- `Binary::encode(sink, x, u)`: encodes `u.rel(x)` in `u.entropy()` bits. -/
def Binary.encodeU (u : Universe) (x : Nat) : List Bool :=
  Binary.encode (u.rel x) u.entropy

/-- `Binary::decode(src, u)`: reads `u.entropy()` bits and applies `u.abs`. -/
def Binary.decodeU (u : Universe) (s : List Bool) : Option (Nat × List Bool) :=
  match Binary.decode u.entropy s with
  | some (r, s1) => some (u.abs r, s1)
  | none => none

theorem EliasDelta.decodeU_encodeU_delta (u : Universe) {x : Nat} (hx : u.min ≤ x)
    (rest : List Bool) :
    EliasDelta.decodeU u (EliasDelta.encodeU u x ++ rest) = some (x, rest) := by
  rw [EliasDelta.encodeU, EliasDelta.decodeU,
    EliasDelta.decode_encode_delta (Nat.le_add_left 1 _) rest]
  simp only [Universe.rel, Universe.abs]
  congr 2
  omega

theorem Binary.decodeU_encodeU_bits (u : Universe) {x : Nat} (hmin : u.min ≤ x)
    (hrel : x - u.min < 2 ^ u.entropy) (rest : List Bool) :
    Binary.decodeU u (Binary.encodeU u x ++ rest) = some (x, rest) := by
  rw [Binary.encodeU, Binary.decodeU, Binary.decode_encode_bits]
  simp only [Universe.rel, Universe.abs]
  rw [Nat.mod_eq_of_lt hrel]
  congr 2
  omega

/- ### Huffman codes and trees (`huffman_code.hpp`, `huffman_tree.hpp`) -/

/-- `code::HuffmanCode`: a codeword `word` (LSBF-packed) and its `length`. -/
structure HuffmanCode where
  word : Nat
  length : Nat
deriving DecidableEq, Repr

/-- A node of `HuffmanTree<Char>`: either a leaf carrying a character and a
frequency, or an inner node with two children whose frequency is the sum of
the children's frequencies (maintained by the `mkInner` constructor below).
Characters are modelled as `Nat` values of a `w`-bit character type. -/
inductive HTree where
  | leaf (c : Nat) (freq : Nat)
  | inner (freq : Nat) (left : HTree) (right : HTree)
deriving DecidableEq, Repr

/-- `Node::freq()`. -/
def HTree.freq : HTree → Nat
  | .leaf _ f => f
  | .inner f _ _ => f

/-- `Node::is_leaf()`. -/
def HTree.isLeaf : HTree → Bool
  | .leaf _ _ => true
  | .inner _ _ _ => false

/-- The node's character field `c_` (only meaningful for leaves; the source
leaves it unset for inner nodes and only reads it behind `is_leaf`). -/
def HTree.charOf : HTree → Nat
  | .leaf c _ => c
  | .inner _ _ _ => 0

/-- `Node::Node(left, right)` / `set_inner`: the inner-node constructor,
setting the frequency to the sum of the children's frequencies. -/
def mkInner (l r : HTree) : HTree := HTree.inner (l.freq + r.freq) l r

/-- `FreqCompare::operator()(a, b)` from the histogram constructor: the
strict comparator handed to `std::priority_queue`. -/
def FreqCompare (a b : HTree) : Bool :=
  (decide (a.freq > b.freq))
  || (a.freq == b.freq && a.isLeaf && !b.isLeaf)
  || (a.freq == b.freq && a.isLeaf && b.isLeaf && decide (a.charOf > b.charOf))

/-- `a` is popped from the priority queue before `b`: `std::priority_queue`
pops the maximal element w.r.t. its comparator, so `a` precedes `b` in pop
order iff `FreqCompare b a`. -/
def popsBefore (a b : HTree) : Bool := FreqCompare b a

/-- Model of `queue.push`: the queue is a list sorted by pop order; a new
element is placed behind every element not strictly after it, so elements
the comparator leaves unordered stay in insertion order. -/
def pqPush (v : HTree) : List HTree → List HTree
  | [] => [v]
  | u :: q => if popsBefore v u then v :: u :: q else u :: pqPush v q

/-- One histogram update: find the character's entry and increment it, or
append a fresh entry with count 1 (`histogram.emplace(c, 1)`). -/
def histInsert : List (Nat × Nat) → Nat → List (Nat × Nat)
  | [], c => [(c, 1)]
  | (d, n) :: t, c => if d = c then (d, n + 1) :: t else (d, n) :: histInsert t c

/-- The histogram phase: scan the input once, counting each character.
Entries are kept in first-occurrence order (the C++ `unordered_map` leaves
the order unspecified; every property proved below is order-independent). -/
def histogramOf (input : List Nat) : List (Nat × Nat) :=
  input.foldl histInsert []

/-- The one-character fix-up: if the histogram has exactly one entry `(c, n)`,
add the synthetic character `~c` (bitwise NOT on the `w`-bit character type)
with frequency 0. -/
def fixupHist (w : Nat) : List (Nat × Nat) → List (Nat × Nat)
  | [(c, n)] => [(c, n), (2 ^ w - 1 - c, 0)]
  | h => h

/-- Fuel-bounded tree-build loop: `while(alphabet_size-- > 1)` pops the two
highest-priority nodes `r` then `l` and pushes their parent; `σ - 1`
iterations run, i.e. until one node remains. -/
def buildLoopF : Nat → List HTree → List HTree
  | 0, q => q
  | f + 1, r :: l :: rest => buildLoopF f (pqPush (mkInner l r) rest)
  | _ + 1, q => q

/-- The tree-build phase on an initial queue of `σ` leaves. -/
def buildLoop (q : List HTree) : List HTree := buildLoopF (q.length - 1) q

/-- `HuffmanTree(It, It)`, the histogram constructor, on a `w`-bit character
type: empty input gives the empty tree (null root); otherwise build the
histogram, apply the one-character fix-up, enqueue one leaf per entry and
run the merge loop. -/
def buildFromInput (w : Nat) (input : List Nat) : Option HTree :=
  match input with
  | [] => none
  | _ :: _ =>
    let hist := fixupHist w (histogramOf input)
    let queue := hist.foldl (fun q e => pqPush (HTree.leaf e.1 e.2) q) []
    match buildLoop queue with
    | [t] => some t
    | _ => none

/-- The characters of the tree's leaves in left-to-right order (the order
the pre-order traversal of `encode_tree` collects them in `uchars_ltr`). -/
def leafChars : HTree → List Nat
  | .leaf c _ => [c]
  | .inner _ l r => leafChars l ++ leafChars r

/-- The number of nodes of the tree, as reported by `HuffmanTree::size()`
(the arena holds exactly the leaves and the merge-created inner nodes). -/
def numNodes : HTree → Nat
  | .leaf _ _ => 1
  | .inner _ l r => 1 + numNodes l + numNodes r

/-- The number of leaves. -/
def numLeaves : HTree → Nat
  | .leaf _ _ => 1
  | .inner _ l r => numLeaves l + numLeaves r

/-- The nodes of the tree in pre-order (node, left subtree, right subtree). -/
def preorderNodes : HTree → List HTree
  | .leaf c f => [.leaf c f]
  | .inner f l r => .inner f l r :: (preorderNodes l ++ preorderNodes r)

/-- `HuffmanTree::encode_tree`: pre-order traversal writing one bit per
node: `1` for a leaf, `0` for an inner node followed by both subtrees. -/
def encodeTopology : HTree → List Bool
  | .leaf _ _ => [true]
  | .inner _ l r => false :: (encodeTopology l ++ encodeTopology r)

/-- The `Range` accumulated over the leaf characters during `encode_tree`. -/
def treeRange (t : HTree) : Range :=
  (leafChars t).foldl Range.contain Range.empty

/-- `HuffmanTree::encode`: for a non-empty tree, the topology bits, then
`EliasDelta(min)` under `umax()`, then `EliasDelta(max)` under
`at_least(min)`, then each leaf character in left-to-right order as
`Binary(c, u)` with `u = Universe(min, max)`; for an empty tree, a single
1-bit. -/
def HuffmanTree.encode : Option HTree → List Bool
  | none => [true]
  | some t =>
    let r := treeRange t
    let u := Universe.ofMinMax r.min r.max
    encodeTopology t
      ++ EliasDelta.encodeU Universe.umax u.min
      ++ EliasDelta.encodeU (Universe.at_least u.min) u.max
      ++ (leafChars t).flatMap (fun c => Binary.encodeU u c)

/-- Fuel-bounded `decode_topology`: reads one bit; a 1-bit is a leaf
(counted into the alphabet size), a 0-bit recurses into both subtrees.
Returns the buffered topology bits, the leaf count, and the rest of the
stream.  The stream length bounds the recursion depth. -/
def decodeTopologyF : Nat → List Bool → Option (List Bool × Nat × List Bool)
  | 0, _ => none
  | _ + 1, [] => none
  | f + 1, b :: s =>
    if b then some ([true], 1, s)
    else
      match decodeTopologyF f s with
      | some (t1, a1, s1) =>
        match decodeTopologyF f s1 with
        | some (t2, a2, s2) => some (false :: (t1 ++ t2), a1 + a2, s2)
        | none => none
      | none => none

/-- Fuel-bounded `decode_node`: consumes one buffered topology bit; a 1-bit
builds a leaf whose character is `Binary::decode(src, u)` cast to the
`w`-bit character type, with frequency 0; a 0-bit rebuilds the left then
the right child and wraps them in an inner node.  The number of topology
bits bounds the recursion depth. -/
def decodeNodeF (w : Nat) (u : Universe) :
    Nat → List Bool → List Bool → Option (HTree × List Bool × List Bool)
  | 0, _, _ => none
  | _ + 1, [], _ => none
  | f + 1, b :: bits, src =>
    if b then
      match Binary.decodeU u src with
      | some (c, src1) => some (.leaf (c % 2 ^ w) 0, bits, src1)
      | none => none
    else
      match decodeNodeF w u f bits src with
      | some (l, bits1, src1) =>
        match decodeNodeF w u f bits1 src1 with
        | some (r, bits2, src2) => some (mkInner l r, bits2, src2)
        | none => none
      | none => none

/-- `HuffmanTree(Source&)`, the decoding constructor: decode the topology
into a buffer; a single-bit topology is the empty tree; otherwise decode
the character universe (`min` under `umax()`, `max` under
`at_least(min)`) and rebuild the nodes from the buffered topology bits,
reading the characters from the source. -/
def HuffmanTree.decode (w : Nat) (s : List Bool) :
    Option (Option HTree × List Bool) :=
  match decodeTopologyF s.length s with
  | some (topo, _, s1) =>
    if 1 < topo.length then
      match EliasDelta.decodeU Universe.umax s1 with
      | some (mn, s2) =>
        match EliasDelta.decodeU (Universe.at_least mn) s2 with
        | some (mx, s3) =>
          match decodeNodeF w (Universe.ofMinMax mn mx) topo.length topo s3 with
          | some (t, _, s4) => some (some t, s4)
          | none => none
        | none => none
      | none => none
    else some (none, s1)
  | none => none

/- ### Per-character codes (`Node::code`, `operator[]`, `Huffman`) -/

/-- One step of `Node::code()`: walking up one edge shifts the accumulated
word left by one and ORs in the is-right-child bit, incrementing the
length. -/
def codeUpStep (code : HuffmanCode) (b : Bool) : HuffmanCode :=
  ⟨(code.word <<< 1) ||| (if b then 1 else 0), code.length + 1⟩

/-- `Node::code()` for the leaf at root-to-leaf path `p` (`false` = left,
`true` = right): the walk from the leaf up to the root processes the edges
of `p` in reverse order. -/
def codeFromLeaf (p : List Bool) : HuffmanCode :=
  p.reverse.foldl codeUpStep ⟨0, 0⟩

/-- The root-to-leaf path of the (first, in pre-order) leaf carrying
character `c`, modelling the `leaves_` character-to-leaf map. -/
def findPath : HTree → Nat → Option (List Bool)
  | .leaf d _, c => if c = d then some [] else none
  | .inner _ l r, c =>
    match findPath l c with
    | some p => some (false :: p)
    | none =>
      match findPath r c with
      | some p => some (true :: p)
      | none => none

/-- `HuffmanTree::operator[](c)`: look the character up in `leaves_` and
walk up from its leaf; absent characters yield `{0, 0}`. -/
def treeLookup (t : Option HTree) (c : Nat) : HuffmanCode :=
  match t with
  | none => ⟨0, 0⟩
  | some tr =>
    match findPath tr c with
    | some p => codeFromLeaf p
    | none => ⟨0, 0⟩

/-- `Huffman::encode(sink, x, table)` after the code has been fetched: the
loop `while(length--) { write(word & 1); word >>= 1; }` writes exactly the
low `length` bits of `word`, LSB first. -/
def Huffman.encode (code : HuffmanCode) : List Bool :=
  lowBits code.length code.word

/-- `Huffman::decode(src, root)`: descend from the root reading one bit per
step (0 = left, 1 = right) until a leaf is reached. -/
def Huffman.decode : HTree → List Bool → Option (Nat × List Bool)
  | .leaf c _, s => some (c, s)
  | .inner _ l r, s =>
    match s with
    | [] => none
    | b :: s1 => if b then Huffman.decode r s1 else Huffman.decode l s1

/-- The tree rebuilt by deserialization: same shape and characters, all
frequencies zero (leaves are rebuilt with frequency 0 and inner-node
frequencies are the sums of their children's). -/
def zeroFreq : HTree → HTree
  | .leaf c _ => .leaf c 0
  | .inner _ l r => mkInner (zeroFreq l) (zeroFreq r)

/-- The shape (topology) of a tree, characters and frequencies erased. -/
inductive TreeShape where
  | leaf
  | node (l r : TreeShape)
deriving DecidableEq, Repr

/-- Topology of a tree. -/
def shapeOf : HTree → TreeShape
  | .leaf _ _ => .leaf
  | .inner _ l r => .node (shapeOf l) (shapeOf r)

/- ### Claim theorems: universal codecs and universes -/

theorem bit_width_eq_clog {d : Nat} (hd : 1 ≤ d) :
    bit_width d = Nat.clog 2 (d + 1) := by
  have key : ∀ n, bit_width d ≤ n ↔ Nat.clog 2 (d + 1) ≤ n := by
    intro n
    rw [bit_width_le_iff, ← Nat.le_pow_iff_clog_le (by norm_num)]
    omega
  exact Nat.le_antisymm ((key _).mpr le_rfl) ((key _).mp le_rfl)

/-- C9: for every `Universe` constructed from `(min, max)` with `min ≤ max`,
the `entropy()` field computed at construction equals
`max(1, ceil(log2(max - min + 1)))`; in particular `wc_entropy`, computed
via `bit_width(max - min)`, coincides with the ceiling-log formula. -/
theorem universe_entropy_correct (min max : Nat) (h : min ≤ max) :
    (Universe.ofMinMax min max).entropy
        = Nat.max 1 (Nat.clog 2 (max - min + 1)) ∧
      wc_entropy min max = Nat.max 1 (Nat.clog 2 (max - min + 1)) := by
  have hmain : wc_entropy min max = Nat.max 1 (Nat.clog 2 (max - min + 1)) := by
    rw [wc_entropy]
    rcases Nat.eq_zero_or_pos (max - min) with hd | hd
    · rw [hd, show bit_width 0 = 0 from rfl]
      simp [Nat.clog_one_right]
    · rw [bit_width_eq_clog hd]
  exact ⟨hmain, hmain⟩

theorem universe_entropy_correct_witness :
    (Universe.ofMinMax 3 10).entropy = Nat.max 1 (Nat.clog 2 (10 - 3 + 1)) ∧
      wc_entropy 3 10 = Nat.max 1 (Nat.clog 2 (10 - 3 + 1)) :=
  universe_entropy_correct 3 10 (by decide)

/-- C6: for every `x ≥ 1`, `EliasGamma::encode(sink, x)` writes `Unary(m)`
followed by the low `m` bits of `x` where `m = bit_width(x) - 1`, for a
total of exactly `2 * bit_width(x) - 1` bits, and `EliasGamma::decode` of
that stream returns `x` (consuming exactly those bits). -/
theorem elias_gamma_correct (x : Nat) (hx : 1 ≤ x) (rest : List Bool) :
    EliasGamma.encode x
        = Unary.encode (bit_width x - 1) ++ lowBits (bit_width x - 1) x ∧
      (EliasGamma.encode x).length = 2 * bit_width x - 1 ∧
      EliasGamma.decode (EliasGamma.encode x ++ rest) = some (x, rest) :=
  ⟨EliasGamma.encode_eq_parts x, EliasGamma.encode_length_gamma hx,
    EliasGamma.decode_encode_gamma hx rest⟩

theorem elias_gamma_correct_witness :
    EliasGamma.encode 7
        = Unary.encode (bit_width 7 - 1) ++ lowBits (bit_width 7 - 1) 7 ∧
      (EliasGamma.encode 7).length = 2 * bit_width 7 - 1 ∧
      EliasGamma.decode (EliasGamma.encode 7 ++ [true, false]) = some (7, [true, false]) :=
  elias_gamma_correct 7 (by decide) [true, false]

/-- C7: for every `x` and exponent `p < 64` (the `uintmax_t` width),
`Rice::encode(sink, x, p)` writes the gamma code of `x / 2^p + 1` followed
by the low `p` bits of `x`; decoding recovers the quotient `x / 2^p` (the
gamma part yields `x / 2^p + 1`), the remainder `x mod 2^p` (the binary
part), and `Rice::decode(src, p)` returns exactly `x`. -/
theorem rice_correct (x p : Nat) (hp : p < 64) (rest : List Bool) :
    Rice.encode x p = EliasGamma.encode (x / 2 ^ p + 1) ++ lowBits p x ∧
      EliasGamma.decode (Rice.encode x p ++ rest)
        = some (x / 2 ^ p + 1, lowBits p x ++ rest) ∧
      fromBits (lowBits p x) = x % 2 ^ p ∧
      Rice.decode p (Rice.encode x p ++ rest) = some (x, rest) := by
  refine ⟨?_, ?_, fromBits_lowBits p x, Rice.decode_encode_rice x p rest⟩
  · rw [Rice.encode, Binary.encode, Nat.shiftRight_eq_div_pow]
  · rw [Rice.gamma_part, Nat.shiftRight_eq_div_pow]

theorem rice_correct_witness :
    Rice.encode 63 5 = EliasGamma.encode (63 / 2 ^ 5 + 1) ++ lowBits 5 63 ∧
      EliasGamma.decode (Rice.encode 63 5 ++ [])
        = some (63 / 2 ^ 5 + 1, lowBits 5 63 ++ []) ∧
      fromBits (lowBits 5 63) = 63 % 2 ^ 5 ∧
      Rice.decode 5 (Rice.encode 63 5 ++ []) = some (63, []) :=
  rice_correct 63 5 (by decide) []

/-- C8: for every `x` and block size `b ≥ 1`, `Vbyte::encode(sink, x, b)`
produces exactly the spec layout: `x` split into `b`-bit blocks least
significant first, a 0 flag bit preceding every block below the one
holding the highest set bit (block index `(bit_width(x) - 1) / b`; index 0
when `x = 0`), and a 1 flag bit preceding that last block; and
`Vbyte::decode(src, b)` on that stream returns `x`. -/
theorem vbyte_correct (x b : Nat) (hb : 1 ≤ b) (rest : List Bool) :
    Vbyte.encode x b = vbyteLayout x b ∧
      Vbyte.decode b (Vbyte.encode x b ++ rest) = some (x, rest) :=
  ⟨Vbyte.encode_eq_layout hb, Vbyte.decode_encode_vbyte hb rest⟩

theorem vbyte_correct_witness :
    Vbyte.encode 64 3 = vbyteLayout 64 3 ∧
      Vbyte.decode 3 (Vbyte.encode 64 3 ++ [true]) = some (64, [true]) :=
  vbyte_correct 64 3 (by decide) [true]

/- ### Claim theorems: tree topology serialization (C4) -/

theorem encodeTopology_eq_preorder (t : HTree) :
    encodeTopology t = (preorderNodes t).map HTree.isLeaf := by
  induction t with
  | leaf c f => rfl
  | inner f l r ihl ihr =>
    simp [encodeTopology, preorderNodes, HTree.isLeaf, ihl, ihr]

theorem numNodes_eq_length_preorder (t : HTree) :
    numNodes t = (preorderNodes t).length := by
  induction t with
  | leaf c f => rfl
  | inner f l r ihl ihr =>
    simp [numNodes, preorderNodes, ihl, ihr]
    omega

theorem encodeTopology_length (t : HTree) :
    (encodeTopology t).length = numNodes t := by
  rw [encodeTopology_eq_preorder, List.length_map, numNodes_eq_length_preorder]

/-- C4: the topology section is the pre-order traversal of the tree with
exactly one bit per node — a 1-bit for each leaf and a 0-bit for each inner
node — for a total of exactly `n` bits for an `n`-node tree; for an empty
tree (null root), `encode` emits exactly one 1-bit and nothing else, and
the decoding constructor treats a topology consisting of just one leaf-bit
as the empty tree. -/
theorem huffman_topology_correct (t : HTree) (w : Nat) (rest : List Bool) :
    encodeTopology t = (preorderNodes t).map HTree.isLeaf ∧
      (encodeTopology t).length = numNodes t ∧
      HuffmanTree.encode none = [true] ∧
      HuffmanTree.decode w (true :: rest) = some (none, rest) := by
  refine ⟨encodeTopology_eq_preorder t, encodeTopology_length t, rfl, ?_⟩
  rw [HuffmanTree.decode]
  simp only [List.length_cons]
  rw [show decodeTopologyF (rest.length + 1) (true :: rest)
      = some ([true], 1, rest) by rw [decodeTopologyF]; simp]
  simp

/- ### Claim theorems: per-character code lookup (C10) -/

theorem findPath_isSome_iff (t : HTree) (c : Nat) :
    (findPath t c).isSome = true ↔ c ∈ leafChars t := by
  induction t with
  | leaf d f =>
    simp only [findPath, leafChars, List.mem_singleton]
    by_cases h : c = d <;> simp [h]
  | inner f l r ihl ihr =>
    simp only [findPath, leafChars, List.mem_append]
    cases hl : findPath l c with
    | some p =>
      have : c ∈ leafChars l := ihl.mp (by simp [hl])
      simp [this]
    | none =>
      have hnl : c ∉ leafChars l := fun hmem => by
        have := ihl.mpr hmem
        rw [hl] at this
        simp at this
      cases hr : findPath r c with
      | some p =>
        have : c ∈ leafChars r := ihr.mp (by simp [hr])
        simp [this, hnl]
      | none =>
        have hnr : c ∉ leafChars r := fun hmem => by
          have := ihr.mpr hmem
          rw [hr] at this
          simp at this
        simp [hnl, hnr]

/-- C10: `operator[](c)` is total on every tree: for a character with no
leaf (including the empty tree) it returns the code `{word = 0, length = 0}`,
and for a character with a leaf it returns that leaf's bottom-up code (the
upward walk `Node::code()` along the leaf's root-to-leaf path). -/
theorem huffman_lookup_total (t : HTree) (c : Nat) :
    treeLookup none c = ⟨0, 0⟩ ∧
      (c ∉ leafChars t → treeLookup (some t) c = ⟨0, 0⟩) ∧
      (c ∈ leafChars t →
        ∃ p, findPath t c = some p ∧ treeLookup (some t) c = codeFromLeaf p) := by
  refine ⟨rfl, ?_, ?_⟩
  · intro hnot
    have : findPath t c = none := by
      cases h : findPath t c with
      | none => rfl
      | some p => exact absurd ((findPath_isSome_iff t c).mp (by simp [h])) hnot
    rw [treeLookup, this]
  · intro hmem
    have := (findPath_isSome_iff t c).mpr hmem
    cases h : findPath t c with
    | none => rw [h] at this; simp at this
    | some p =>
      refine ⟨p, rfl, ?_⟩
      rw [treeLookup, h]

theorem huffman_lookup_total_witness :
    (treeLookup none 9 = ⟨0, 0⟩ ∧
      (9 ∉ leafChars (HTree.inner 2 (.leaf 3 1) (.leaf 5 1)) →
        treeLookup (some (HTree.inner 2 (.leaf 3 1) (.leaf 5 1))) 9 = ⟨0, 0⟩) ∧
      (9 ∈ leafChars (HTree.inner 2 (.leaf 3 1) (.leaf 5 1)) →
        ∃ p, findPath (HTree.inner 2 (.leaf 3 1) (.leaf 5 1)) 9 = some p ∧
          treeLookup (some (HTree.inner 2 (.leaf 3 1) (.leaf 5 1))) 9 = codeFromLeaf p)) ∧
    (5 ∈ leafChars (HTree.inner 2 (.leaf 3 1) (.leaf 5 1)) →
      ∃ p, findPath (HTree.inner 2 (.leaf 3 1) (.leaf 5 1)) 5 = some p ∧
        treeLookup (some (HTree.inner 2 (.leaf 3 1) (.leaf 5 1))) 5 = codeFromLeaf p) :=
  ⟨huffman_lookup_total (HTree.inner 2 (.leaf 3 1) (.leaf 5 1)) 9,
    (huffman_lookup_total (HTree.inner 2 (.leaf 3 1) (.leaf 5 1)) 5).2.2⟩

/- ### Construction analysis: histogram, queue and merge-loop lemmas -/

/-- The leaf characters of all trees currently in the queue. -/
def queueChars (q : List HTree) : List Nat := q.flatMap leafChars

theorem histInsert_keys (h : List (Nat × Nat)) (a b : Nat) :
    b ∈ (histInsert h a).map Prod.fst ↔ b = a ∨ b ∈ h.map Prod.fst := by
  induction h with
  | nil => simp [histInsert]
  | cons e t ih =>
    obtain ⟨d, n⟩ := e
    by_cases hda : d = a
    · subst hda
      have heq : histInsert ((d, n) :: t) d = (d, n + 1) :: t := by
        rw [histInsert, if_pos rfl]
      rw [heq]
      simp only [List.map_cons, List.mem_cons]
      tauto
    · have heq : histInsert ((d, n) :: t) a = (d, n) :: histInsert t a := by
        rw [histInsert, if_neg hda]
      rw [heq]
      simp only [List.map_cons, List.mem_cons, ih]
      tauto

theorem histogram_keys_aux (input : List Nat) :
    ∀ acc b, (b ∈ (input.foldl histInsert acc).map Prod.fst
      ↔ b ∈ input ∨ b ∈ acc.map Prod.fst) := by
  induction input with
  | nil => simp
  | cons a input ih =>
    intro acc b
    rw [List.foldl_cons, ih (histInsert acc a) b, histInsert_keys]
    simp only [List.mem_cons]
    tauto

theorem histogram_keys (input : List Nat) (b : Nat) :
    b ∈ (histogramOf input).map Prod.fst ↔ b ∈ input := by
  rw [histogramOf, histogram_keys_aux]
  simp

theorem histInsert_nodup (h : List (Nat × Nat)) (a : Nat)
    (hnd : (h.map Prod.fst).Nodup) : ((histInsert h a).map Prod.fst).Nodup := by
  induction h with
  | nil => simp [histInsert]
  | cons e t ih =>
    obtain ⟨d, n⟩ := e
    simp only [List.map_cons, List.nodup_cons] at hnd
    by_cases hda : d = a
    · subst hda
      have heq : histInsert ((d, n) :: t) d = (d, n + 1) :: t := by
        rw [histInsert, if_pos rfl]
      rw [heq]
      simp only [List.map_cons, List.nodup_cons]
      exact hnd
    · have heq : histInsert ((d, n) :: t) a = (d, n) :: histInsert t a := by
        rw [histInsert, if_neg hda]
      rw [heq]
      simp only [List.map_cons, List.nodup_cons]
      refine ⟨?_, ih hnd.2⟩
      rw [histInsert_keys]
      rintro (rfl | hmem)
      · exact hda rfl
      · exact hnd.1 hmem

theorem histogram_nodup_aux (input : List Nat) :
    ∀ acc, (acc.map Prod.fst).Nodup →
      ((input.foldl histInsert acc).map Prod.fst).Nodup := by
  induction input with
  | nil => intro acc h; simpa using h
  | cons a input ih =>
    intro acc h
    exact ih (histInsert acc a) (histInsert_nodup acc a h)

theorem histogram_nodup (input : List Nat) :
    ((histogramOf input).map Prod.fst).Nodup :=
  histogram_nodup_aux input [] (by simp)

theorem fixupHist_keys (w : Nat) (h : List (Nat × Nat)) (b : Nat) :
    b ∈ ((fixupHist w h).map Prod.fst) ↔
      b ∈ h.map Prod.fst ∨
        (∃ c n, h = [(c, n)] ∧ b = 2 ^ w - 1 - c) := by
  match h with
  | [] => simp [fixupHist]
  | [(c, n)] =>
    simp only [fixupHist, List.map_cons, List.map_nil, List.mem_cons,
      List.mem_singleton]
    constructor
    · rintro (rfl | rfl | h)
      · left; left; rfl
      · right; exact ⟨c, n, rfl, rfl⟩
      · simp at h
    · rintro ((rfl | h) | ⟨c2, n2, heq, rfl⟩)
      · left; rfl
      · simp at h
      · simp only [List.cons.injEq, Prod.mk.injEq, and_true] at heq
        obtain ⟨⟨rfl, rfl⟩, -⟩ := heq
        right; left; rfl
  | e1 :: e2 :: t =>
    simp only [fixupHist]
    constructor
    · intro hmem; exact Or.inl hmem
    · rintro (hmem | ⟨c, n, heq, rfl⟩)
      · exact hmem
      · simp at heq

theorem fixupHist_ne_nil (w : Nat) (h : List (Nat × Nat)) (hne : h ≠ []) :
    2 ≤ (fixupHist w h).length := by
  match h with
  | [] => exact absurd rfl hne
  | [(c, n)] => simp [fixupHist]
  | e1 :: e2 :: t => simp [fixupHist]

theorem pqPush_chars (v : HTree) (q : List HTree) (c : Nat) :
    c ∈ queueChars (pqPush v q) ↔ c ∈ leafChars v ∨ c ∈ queueChars q := by
  induction q with
  | nil => simp [pqPush, queueChars]
  | cons u q ih =>
    rw [pqPush]
    by_cases h : popsBefore v u = true
    · rw [if_pos h]
      simp only [queueChars, List.flatMap_cons, List.mem_append]
    · rw [if_neg h]
      simp only [queueChars, List.flatMap_cons, List.mem_append] at ih ⊢
      tauto

theorem pqPush_length (v : HTree) (q : List HTree) :
    (pqPush v q).length = q.length + 1 := by
  induction q with
  | nil => rfl
  | cons u q ih =>
    rw [pqPush]
    by_cases h : popsBefore v u = true
    · rw [if_pos h]
      rfl
    · rw [if_neg h]
      simp only [List.length_cons, ih]

/-- The total node count of all trees in the queue. -/
def queueNodes (q : List HTree) : Nat := (q.map numNodes).sum

theorem pqPush_nodes (v : HTree) (q : List HTree) :
    queueNodes (pqPush v q) = numNodes v + queueNodes q := by
  induction q with
  | nil => rfl
  | cons u q ih =>
    rw [pqPush]
    by_cases h : popsBefore v u = true
    · rw [if_pos h]
      simp [queueNodes]
    · rw [if_neg h]
      simp only [queueNodes, List.map_cons, List.sum_cons] at ih ⊢
      omega

theorem leafChars_mkInner (l r : HTree) :
    leafChars (mkInner l r) = leafChars l ++ leafChars r := rfl

theorem numNodes_mkInner (l r : HTree) :
    numNodes (mkInner l r) = 1 + numNodes l + numNodes r := rfl

theorem pqPush_mem_self (v : HTree) (q : List HTree) : v ∈ pqPush v q := by
  induction q with
  | nil => simp [pqPush]
  | cons u q ih =>
    rw [pqPush]
    by_cases h : popsBefore v u = true
    · rw [if_pos h]
      simp
    · rw [if_neg h]
      simp only [List.mem_cons]
      exact Or.inr ih

theorem buildLoopF_result (f : Nat) :
    ∀ q, q.length = f + 1 →
      ∃ t, buildLoopF f q = [t] ∧
        queueNodes q + f = numNodes t ∧
        (∀ c, c ∈ queueChars q ↔ c ∈ leafChars t) ∧
        (1 ≤ f → t.isLeaf = false) := by
  induction f with
  | zero =>
    intro q hq
    match q with
    | [t] =>
      refine ⟨t, rfl, ?_, ?_, by omega⟩
      · simp [queueNodes]
      · simp [queueChars]
  | succ f ih =>
    intro q hq
    match q with
    | r :: l :: rest =>
      rw [show buildLoopF (f + 1) (r :: l :: rest)
          = buildLoopF f (pqPush (mkInner l r) rest) from rfl]
      have hlen : (pqPush (mkInner l r) rest).length = f + 1 := by
        rw [pqPush_length]
        simp at hq
        omega
      obtain ⟨t, ht, hnodes, hchars, hinner⟩ := ih _ hlen
      refine ⟨t, ht, ?_, ?_, ?_⟩
      · rw [pqPush_nodes, numNodes_mkInner] at hnodes
        simp only [queueNodes, List.map_cons, List.sum_cons] at hnodes ⊢
        omega
      · intro c
        rw [← hchars c, pqPush_chars, leafChars_mkInner]
        simp [queueChars, List.mem_append]
        tauto
      · intro _
        match f, hinner with
        | 0, _ =>
          have : pqPush (mkInner l r) rest = [t] := ht
          have hm : mkInner l r ∈ pqPush (mkInner l r) rest :=
            pqPush_mem_self _ _
          rw [this] at hm
          simp at hm
          rw [← hm]
          rfl
        | f + 1, hinner => exact hinner (by omega)

theorem queue_of_hist_chars (hist : List (Nat × Nat)) :
    ∀ qacc c,
      (c ∈ queueChars (hist.foldl (fun q e => pqPush (HTree.leaf e.1 e.2) q) qacc)
        ↔ c ∈ hist.map Prod.fst ∨ c ∈ queueChars qacc) := by
  induction hist with
  | nil => simp
  | cons e hist ih =>
    intro qacc c
    rw [List.foldl_cons, ih, pqPush_chars]
    simp only [List.map_cons, List.mem_cons, leafChars, List.mem_singleton]
    tauto

theorem queue_of_hist_length (hist : List (Nat × Nat)) :
    ∀ qacc,
      (hist.foldl (fun q e => pqPush (HTree.leaf e.1 e.2) q) qacc).length
        = hist.length + qacc.length := by
  induction hist with
  | nil => simp
  | cons e hist ih =>
    intro qacc
    rw [List.foldl_cons, ih, pqPush_length]
    simp only [List.length_cons]
    omega

theorem queue_of_hist_nodes (hist : List (Nat × Nat)) :
    ∀ qacc,
      queueNodes (hist.foldl (fun q e => pqPush (HTree.leaf e.1 e.2) q) qacc)
        = hist.length + queueNodes qacc := by
  induction hist with
  | nil => simp
  | cons e hist ih =>
    intro qacc
    rw [List.foldl_cons, ih, pqPush_nodes]
    simp only [numNodes, List.length_cons]
    omega

/-- Everything `buildFromInput` returns, packaged: the build succeeds on
non-empty input, the tree's node count is `2 * sigma' - 1` for the
post-fix-up alphabet size `sigma'`, its leaf characters are exactly the
post-fix-up histogram keys, and the root is an inner node. -/
theorem buildFromInput_spec (w : Nat) (a : Nat) (input : List Nat) :
    ∃ t, buildFromInput w (a :: input) = some t ∧
      numNodes t = 2 * (fixupHist w (histogramOf (a :: input))).length - 1 ∧
      (∀ c, c ∈ leafChars t ↔
        c ∈ (fixupHist w (histogramOf (a :: input))).map Prod.fst) ∧
      t.isLeaf = false := by
  have hanil : a ∈ (histogramOf (a :: input)).map Prod.fst := by
    rw [histogram_keys]
    simp
  have hne : histogramOf (a :: input) ≠ [] := by
    intro h
    rw [h] at hanil
    simp at hanil
  have hfix := fixupHist_ne_nil w _ hne
  set hist := fixupHist w (histogramOf (a :: input)) with hhist
  set queue := hist.foldl (fun q e => pqPush (HTree.leaf e.1 e.2) q) [] with hqueue
  have hqlen : queue.length = hist.length := by
    rw [hqueue, queue_of_hist_length]
    simp
  have hqnodes : queueNodes queue = hist.length := by
    rw [hqueue, queue_of_hist_nodes]
    simp [queueNodes]
  have hlen1 : queue.length = (queue.length - 1) + 1 := by omega
  obtain ⟨t, ht, hnodes, hchars, hinner⟩ := buildLoopF_result (queue.length - 1) queue hlen1
  refine ⟨t, ?_, ?_, ?_, ?_⟩
  · rw [buildFromInput]
    show (match buildLoop queue with
      | [t] => some t
      | _ => none) = some t
    rw [buildLoop, ht]
  · omega
  · intro c
    rw [← hchars c, hqueue, queue_of_hist_chars]
    simp [queueChars]
  · exact hinner (by omega)

/- ### Claim theorems: construction tie-breaking (C2) and node count (C3) -/

/-- C2 (amended): during tree construction, when the two highest-priority
nodes have equal frequency and one is a leaf while the other is an inner
node, the comparator orders the leaf strictly below the inner node, so the
INNER node has higher pop priority: it is popped first (as `r`) and becomes
the right child of the new parent, while the leaf is popped second (as `l`)
and becomes the left child. -/
theorem huffman_tie_leaf_inner (lf inr : HTree) (q : List HTree)
    (hlf : lf.isLeaf = true) (hinr : inr.isLeaf = false)
    (hf : lf.freq = inr.freq) :
    FreqCompare lf inr = true ∧ FreqCompare inr lf = false ∧
      popsBefore inr lf = true ∧ popsBefore lf inr = false ∧
      buildLoopF 1 (inr :: lf :: q) = pqPush (HTree.inner (lf.freq + inr.freq) lf inr) q := by
  have h1 : FreqCompare lf inr = true := by
    simp [FreqCompare, hlf, hinr, hf]
  have h2 : FreqCompare inr lf = false := by
    simp [FreqCompare, hlf, hinr, hf]
  refine ⟨h1, h2, ?_, ?_, rfl⟩
  · rw [popsBefore]; exact h1
  · rw [popsBefore]; exact h2

theorem huffman_tie_leaf_inner_witness :
    FreqCompare (HTree.leaf 2 2) (HTree.inner 2 (HTree.leaf 1 1) (HTree.leaf 0 1)) = true ∧
      FreqCompare (HTree.inner 2 (HTree.leaf 1 1) (HTree.leaf 0 1)) (HTree.leaf 2 2) = false ∧
      popsBefore (HTree.inner 2 (HTree.leaf 1 1) (HTree.leaf 0 1)) (HTree.leaf 2 2) = true ∧
      popsBefore (HTree.leaf 2 2) (HTree.inner 2 (HTree.leaf 1 1) (HTree.leaf 0 1)) = false ∧
      buildLoopF 1 (HTree.inner 2 (HTree.leaf 1 1) (HTree.leaf 0 1) :: HTree.leaf 2 2 :: [])
        = pqPush (HTree.inner ((HTree.leaf 2 2).freq
            + (HTree.inner 2 (HTree.leaf 1 1) (HTree.leaf 0 1)).freq)
            (HTree.leaf 2 2) (HTree.inner 2 (HTree.leaf 1 1) (HTree.leaf 0 1))) [] :=
  huffman_tie_leaf_inner (HTree.leaf 2 2) (HTree.inner 2 (HTree.leaf 1 1) (HTree.leaf 0 1))
    [] (by decide) (by decide) (by decide)

/-- C2 counterexample: on the input `[0, 1, 2, 2]` the final merge pops the
two equal-frequency nodes — the leaf `2` (frequency 2) and the inner node
of frequency 2 — and produces a root whose LEFT child is the leaf and whose
RIGHT child is the inner node, contradicting the claim that the leaf is
popped first and becomes the right child. -/
theorem huffman_tie_counterexample :
    buildFromInput 8 [0, 1, 2, 2]
        = some (HTree.inner 4 (HTree.leaf 2 2)
            (HTree.inner 2 (HTree.leaf 1 1) (HTree.leaf 0 1))) ∧
      (HTree.leaf 2 2).freq = (HTree.inner 2 (HTree.leaf 1 1) (HTree.leaf 0 1)).freq ∧
      (HTree.inner 2 (HTree.leaf 1 1) (HTree.leaf 0 1)).isLeaf = false := by
  decide

theorem fixupHist_eq_self (w : Nat) (h : List (Nat × Nat)) (hh : 2 ≤ h.length) :
    fixupHist w h = h := by
  match h with
  | [] => simp at hh
  | [e] => simp at hh
  | e1 :: e2 :: t => rfl

theorem fixupHist_singleton_length (w : Nat) (h : List (Nat × Nat))
    (hh : h.length = 1) : (fixupHist w h).length = 2 := by
  match h with
  | [(c, n)] => rfl

/-- C3 (amended): after construction from a non-empty input, the histogram
keys are exactly the distinct input characters (so its length is the
alphabet size `sigma`), and `size()` — the node count — is `2 * sigma - 1`
when `sigma >= 2`; when the input has exactly one distinct character, the
one-character fix-up adds the synthetic character `~c` with frequency 0,
making the effective alphabet size 2, and the node count is 3 (not 1). -/
theorem huffman_tree_size_correct (w : Nat) (input : List Nat) (t : HTree)
    (hbuild : buildFromInput w input = some t) :
    ((histogramOf input).map Prod.fst).Nodup ∧
      (∀ c, c ∈ (histogramOf input).map Prod.fst ↔ c ∈ input) ∧
      numNodes t = 2 * (fixupHist w (histogramOf input)).length - 1 ∧
      (2 ≤ (histogramOf input).length →
        numNodes t = 2 * (histogramOf input).length - 1) ∧
      ((histogramOf input).length = 1 → numNodes t = 3) := by
  match input with
  | [] => exact absurd hbuild (by rw [buildFromInput]; simp)
  | a :: input =>
    obtain ⟨t0, hb0, hn, _, _⟩ := buildFromInput_spec w a input
    rw [hb0] at hbuild
    obtain rfl : t0 = t := by
      simpa using hbuild
    refine ⟨histogram_nodup _, fun c => histogram_keys _ c, hn, ?_, ?_⟩
    · intro hs
      rw [hn, fixupHist_eq_self w _ hs]
    · intro hs
      rw [hn, fixupHist_singleton_length w _ hs]

theorem huffman_tree_size_correct_witness :
    ((histogramOf [0, 1, 2, 2]).map Prod.fst).Nodup ∧
      (∀ c, c ∈ (histogramOf [0, 1, 2, 2]).map Prod.fst ↔ c ∈ [0, 1, 2, 2]) ∧
      numNodes (HTree.inner 4 (HTree.leaf 2 2)
          (HTree.inner 2 (HTree.leaf 1 1) (HTree.leaf 0 1)))
        = 2 * (fixupHist 8 (histogramOf [0, 1, 2, 2])).length - 1 ∧
      (2 ≤ (histogramOf [0, 1, 2, 2]).length →
        numNodes (HTree.inner 4 (HTree.leaf 2 2)
            (HTree.inner 2 (HTree.leaf 1 1) (HTree.leaf 0 1)))
          = 2 * (histogramOf [0, 1, 2, 2]).length - 1) ∧
      ((histogramOf [0, 1, 2, 2]).length = 1 →
        numNodes (HTree.inner 4 (HTree.leaf 2 2)
            (HTree.inner 2 (HTree.leaf 1 1) (HTree.leaf 0 1))) = 3) :=
  huffman_tree_size_correct 8 [0, 1, 2, 2]
    (HTree.inner 4 (HTree.leaf 2 2) (HTree.inner 2 (HTree.leaf 1 1) (HTree.leaf 0 1)))
    (by decide)

/-- C3 counterexample: the input `[5]` has exactly one distinct character,
yet the constructed tree has 3 nodes (two leaves — the real character 5 and
the synthetic `~5 = 250` — plus one inner node), not 1 as claimed. -/
theorem huffman_tree_size_counterexample :
    (histogramOf [5]).length = 1 ∧
      (buildFromInput 8 [5]).map numNodes = some 3 ∧
      (buildFromInput 8 [5]).map numNodes ≠ some 1 := by
  decide

/- ### Claim theorems: symbol encode/decode (C5) -/

theorem fromBits_append (s1 s2 : List Bool) :
    fromBits (s1 ++ s2) = fromBits s1 + fromBits s2 * 2 ^ s1.length := by
  induction s1 with
  | nil => simp [fromBits]
  | cons b s1 ih =>
    simp only [List.cons_append, fromBits, List.append_eq, ih, List.length_cons,
      pow_succ]
    ring

theorem codeUpStep_word (acc : HuffmanCode) (b : Bool) :
    codeUpStep acc b = ⟨2 * acc.word + (if b then 1 else 0), acc.length + 1⟩ := by
  rw [codeUpStep,
    shiftLeft_lor_eq_add acc.word
      (show (if b then 1 else 0) < 2 ^ 1 by cases b <;> simp)]
  norm_num

theorem foldl_codeUpStep (l : List Bool) :
    ∀ acc : HuffmanCode,
      l.foldl codeUpStep acc
        = ⟨acc.word * 2 ^ l.length + fromBits l.reverse, acc.length + l.length⟩ := by
  induction l with
  | nil =>
    intro acc
    simp [fromBits]
  | cons b l ih =>
    intro acc
    rw [List.foldl_cons, ih, codeUpStep_word]
    simp only [List.reverse_cons, fromBits_append, List.length_reverse,
      List.length_cons]
    congr 1
    · simp only [fromBits]
      ring
    · omega

theorem codeFromLeaf_eq (p : List Bool) :
    codeFromLeaf p = ⟨fromBits p, p.length⟩ := by
  rw [codeFromLeaf, foldl_codeUpStep]
  simp

theorem findPath_decode (t : HTree) (c : Nat) :
    ∀ p rest, findPath t c = some p →
      Huffman.decode t (p ++ rest) = some (c, rest) := by
  induction t with
  | leaf d f =>
    intro p rest hp
    rw [findPath] at hp
    by_cases h : c = d
    · rw [if_pos h] at hp
      obtain rfl : p = [] := by
        simpa using hp.symm
      rw [Huffman.decode, h]
      simp
    · rw [if_neg h] at hp
      simp at hp
  | inner f l r ihl ihr =>
    intro p rest hp
    rw [findPath] at hp
    cases hl : findPath l c with
    | some q =>
      rw [hl] at hp
      obtain rfl : p = false :: q := by
        simpa using hp.symm
      rw [List.cons_append, Huffman.decode]
      simp only [Bool.false_eq_true, if_false]
      exact ihl q rest hl
    | none =>
      rw [hl] at hp
      cases hr : findPath r c with
      | some q =>
        rw [hr] at hp
        obtain rfl : p = true :: q := by
          simpa using hp.symm
        rw [List.cons_append, Huffman.decode]
        simp only [if_true]
        exact ihr q rest hr
      | none =>
        rw [hr] at hp
        simp at hp

theorem build_mem_leafChars (w : Nat) (input : List Nat) (t : HTree) (c : Nat)
    (hbuild : buildFromInput w input = some t) (hc : c ∈ input) :
    c ∈ leafChars t := by
  match input with
  | [] => simp at hc
  | a :: input =>
    obtain ⟨t0, hb0, _, hchars, _⟩ := buildFromInput_spec w a input
    rw [hb0] at hbuild
    obtain rfl : t0 = t := by simpa using hbuild
    rw [hchars c, fixupHist_keys]
    left
    rw [histogram_keys]
    exact hc

/-- C5: for every Huffman tree built from a non-empty input and every
character `c` occurring in that input, `Huffman::encode(sink, c, codes)`
emits exactly `codes[c].length` bits (the LSBF bits of `codes[c].word`),
and `Huffman::decode(src, root)` reading that stream descends left on 0 and
right on 1, returns `c`, and consumes exactly those bits (the remainder of
the stream is untouched). -/
theorem huffman_codec_correct (w : Nat) (input : List Nat) (t : HTree) (c : Nat)
    (rest : List Bool) (hbuild : buildFromInput w input = some t)
    (hc : c ∈ input) :
    (Huffman.encode (treeLookup (some t) c)).length
        = (treeLookup (some t) c).length ∧
      Huffman.decode t (Huffman.encode (treeLookup (some t) c) ++ rest)
        = some (c, rest) := by
  refine ⟨lowBits_length _ _, ?_⟩
  have hmem := build_mem_leafChars w input t c hbuild hc
  have hsome := (findPath_isSome_iff t c).mpr hmem
  cases hp : findPath t c with
  | none => rw [hp] at hsome; simp at hsome
  | some p =>
    have hlook : treeLookup (some t) c = ⟨fromBits p, p.length⟩ := by
      simp only [treeLookup, hp]
      rw [codeFromLeaf_eq]
    rw [hlook]
    have henc : Huffman.encode (⟨fromBits p, p.length⟩ : HuffmanCode) = p := by
      rw [Huffman.encode]
      exact lowBits_fromBits p
    rw [henc]
    exact findPath_decode t c p rest hp

theorem huffman_codec_correct_witness :
    (Huffman.encode (treeLookup (buildFromInput 8 [0, 1, 2, 2]) 2)).length
        = (treeLookup (buildFromInput 8 [0, 1, 2, 2]) 2).length ∧
      Huffman.decode
          (HTree.inner 4 (HTree.leaf 2 2)
            (HTree.inner 2 (HTree.leaf 1 1) (HTree.leaf 0 1)))
          (Huffman.encode (treeLookup (buildFromInput 8 [0, 1, 2, 2]) 2) ++ [true])
        = some (2, [true]) := by
  have h := huffman_codec_correct 8 [0, 1, 2, 2]
    (HTree.inner 4 (HTree.leaf 2 2) (HTree.inner 2 (HTree.leaf 1 1) (HTree.leaf 0 1)))
    2 [true] (by decide) (by decide)
  rwa [show buildFromInput 8 [0, 1, 2, 2]
      = some (HTree.inner 4 (HTree.leaf 2 2)
        (HTree.inner 2 (HTree.leaf 1 1) (HTree.leaf 0 1))) from by decide]

/- ### Tree serialization round trip (C1) -/

theorem numNodes_pos (t : HTree) : 1 ≤ numNodes t := by
  cases t with
  | leaf c f => simp [numNodes]
  | inner f l r => rw [numNodes]; omega

theorem leafChars_ne_nil (t : HTree) : leafChars t ≠ [] := by
  induction t with
  | leaf c f => simp [leafChars]
  | inner f l r ihl ihr => simp [leafChars, ihl]

theorem decodeTopologyF_encode (t : HTree) :
    ∀ f rest, numNodes t ≤ f →
      decodeTopologyF f (encodeTopology t ++ rest)
        = some (encodeTopology t, numLeaves t, rest) := by
  induction t with
  | leaf c fr =>
    intro f rest hf
    match f, hf with
    | 0, hf => simp [numNodes] at hf
    | f + 1, _ =>
      rw [show encodeTopology (HTree.leaf c fr) ++ rest = true :: rest from rfl]
      rw [decodeTopologyF]
      simp [encodeTopology, numLeaves]
  | inner fr l r ihl ihr =>
    intro f rest hf
    rw [numNodes] at hf
    have hpl := numNodes_pos l
    have hpr := numNodes_pos r
    match f, hf with
    | 0, hf => omega
    | f + 1, hf =>
      rw [show encodeTopology (HTree.inner fr l r) ++ rest
          = false :: (encodeTopology l ++ (encodeTopology r ++ rest)) from by
        rw [encodeTopology]
        simp]
      rw [decodeTopologyF]
      simp only [Bool.false_eq_true, if_false]
      rw [ihl f (encodeTopology r ++ rest) (by omega)]
      simp only
      rw [ihr f rest (by omega)]
      simp [encodeTopology, numLeaves]

theorem decodeNodeF_encode (w : Nat) (u : Universe) (t : HTree)
    (hch : ∀ c ∈ leafChars t, u.min ≤ c ∧ c - u.min < 2 ^ u.entropy ∧ c < 2 ^ w) :
    ∀ f bitsRest srcRest, numNodes t ≤ f →
      decodeNodeF w u f (encodeTopology t ++ bitsRest)
          ((leafChars t).flatMap (Binary.encodeU u) ++ srcRest)
        = some (zeroFreq t, bitsRest, srcRest) := by
  induction t with
  | leaf c fr =>
    intro f bitsRest srcRest hf
    obtain ⟨hmin, hrel, hw⟩ := hch c (by simp [leafChars])
    match f, hf with
    | 0, hf => simp [numNodes] at hf
    | f + 1, _ =>
      rw [show encodeTopology (HTree.leaf c fr) ++ bitsRest
          = true :: bitsRest from rfl]
      rw [show (leafChars (HTree.leaf c fr)).flatMap (Binary.encodeU u) ++ srcRest
          = Binary.encodeU u c ++ srcRest from by simp [leafChars]]
      rw [decodeNodeF]
      simp only [if_true]
      rw [Binary.decodeU_encodeU_bits u hmin hrel srcRest]
      simp only [zeroFreq]
      rw [Nat.mod_eq_of_lt hw]
  | inner fr l r ihl ihr =>
    intro f bitsRest srcRest hf
    rw [numNodes] at hf
    have hpl := numNodes_pos l
    have hpr := numNodes_pos r
    have hchl : ∀ c ∈ leafChars l, u.min ≤ c ∧ c - u.min < 2 ^ u.entropy ∧ c < 2 ^ w :=
      fun c hc => hch c (by simp [leafChars, hc])
    have hchr : ∀ c ∈ leafChars r, u.min ≤ c ∧ c - u.min < 2 ^ u.entropy ∧ c < 2 ^ w :=
      fun c hc => hch c (by simp [leafChars, hc])
    match f, hf with
    | 0, hf => omega
    | f + 1, hf =>
      rw [show encodeTopology (HTree.inner fr l r) ++ bitsRest
          = false :: (encodeTopology l ++ (encodeTopology r ++ bitsRest)) from by
        rw [encodeTopology]
        simp]
      rw [show (leafChars (HTree.inner fr l r)).flatMap (Binary.encodeU u) ++ srcRest
          = (leafChars l).flatMap (Binary.encodeU u)
            ++ ((leafChars r).flatMap (Binary.encodeU u) ++ srcRest) from by
        rw [leafChars]
        simp]
      rw [decodeNodeF]
      simp only [Bool.false_eq_true, if_false]
      rw [ihl hchl f _ _ (by omega)]
      simp only
      rw [ihr hchr f _ _ (by omega)]
      rfl

theorem range_fold_min_mono (cs : List Nat) :
    ∀ r : Range, (cs.foldl Range.contain r).min ≤ r.min := by
  induction cs with
  | nil => intro r; exact le_rfl
  | cons c cs ih =>
    intro r
    rw [List.foldl_cons]
    exact le_trans (ih (r.contain c)) (Nat.min_le_left _ _)

theorem range_fold_max_mono (cs : List Nat) :
    ∀ r : Range, r.max ≤ (cs.foldl Range.contain r).max := by
  induction cs with
  | nil => intro r; exact le_rfl
  | cons c cs ih =>
    intro r
    rw [List.foldl_cons]
    exact le_trans (Nat.le_max_left _ _) (ih (r.contain c))

theorem range_fold_min_le (cs : List Nat) :
    ∀ (r : Range), ∀ c ∈ cs, (cs.foldl Range.contain r).min ≤ c := by
  induction cs with
  | nil => intro r c hc; simp at hc
  | cons d cs ih =>
    intro r c hc
    rcases List.mem_cons.mp hc with rfl | hc
    · rw [List.foldl_cons]
      exact le_trans (range_fold_min_mono cs (r.contain c)) (Nat.min_le_right _ _)
    · rw [List.foldl_cons]
      exact ih (r.contain d) c hc

theorem range_fold_le_max (cs : List Nat) :
    ∀ (r : Range), ∀ c ∈ cs, c ≤ (cs.foldl Range.contain r).max := by
  induction cs with
  | nil => intro r c hc; simp at hc
  | cons d cs ih =>
    intro r c hc
    rcases List.mem_cons.mp hc with rfl | hc
    · rw [List.foldl_cons]
      exact le_trans (Nat.le_max_right _ _) (range_fold_max_mono cs (r.contain c))
    · rw [List.foldl_cons]
      exact ih (r.contain d) c hc

theorem treeRange_min_le {t : HTree} {c : Nat} (hc : c ∈ leafChars t) :
    (treeRange t).min ≤ c :=
  range_fold_min_le (leafChars t) Range.empty c hc

theorem treeRange_le_max {t : HTree} {c : Nat} (hc : c ∈ leafChars t) :
    c ≤ (treeRange t).max :=
  range_fold_le_max (leafChars t) Range.empty c hc

theorem treeRange_min_le_max (t : HTree) :
    (treeRange t).min ≤ (treeRange t).max := by
  obtain ⟨c, hc⟩ := List.exists_mem_of_ne_nil _ (leafChars_ne_nil t)
  exact le_trans (treeRange_min_le hc) (treeRange_le_max hc)

theorem numNodes_of_inner {t : HTree} (h : t.isLeaf = false) :
    3 ≤ numNodes t := by
  match t with
  | .leaf c f => simp [HTree.isLeaf] at h
  | .inner f l r =>
    have hpl := numNodes_pos l
    have hpr := numNodes_pos r
    rw [numNodes]
    omega

theorem Universe.ofMinMax_min (a b : Nat) : (Universe.ofMinMax a b).min = a := rfl

theorem Universe.ofMinMax_max (a b : Nat) : (Universe.ofMinMax a b).max = b := rfl

theorem Universe.ofMinMax_entropy (a b : Nat) :
    (Universe.ofMinMax a b).entropy = wc_entropy a b := rfl

theorem Universe.at_least_min (a : Nat) : (Universe.at_least a).min = a := rfl

theorem Universe.umax_min : Universe.umax.min = 0 := rfl

theorem HuffmanTree.decode_encode_tree (w : Nat) (t : HTree)
    (hleaf : ∀ c ∈ leafChars t, c < 2 ^ w) (hinner : t.isLeaf = false)
    (rest : List Bool) :
    HuffmanTree.decode w (HuffmanTree.encode (some t) ++ rest)
      = some (some (zeroFreq t), rest) := by
  have hch : ∀ c ∈ leafChars t,
      (Universe.ofMinMax (treeRange t).min (treeRange t).max).min ≤ c ∧
        c - (Universe.ofMinMax (treeRange t).min (treeRange t).max).min
          < 2 ^ (Universe.ofMinMax (treeRange t).min (treeRange t).max).entropy ∧
        c < 2 ^ w := by
    intro c hc
    rw [Universe.ofMinMax_min, Universe.ofMinMax_entropy]
    refine ⟨treeRange_min_le hc, ?_, hleaf c hc⟩
    have h1 := treeRange_le_max hc
    have h2 : (treeRange t).max - (treeRange t).min
        < 2 ^ bit_width ((treeRange t).max - (treeRange t).min) :=
      lt_two_pow_bit_width _
    have h3 : (2 : Nat) ^ bit_width ((treeRange t).max - (treeRange t).min)
        ≤ 2 ^ wc_entropy (treeRange t).min (treeRange t).max := by
      apply Nat.pow_le_pow_right (by omega)
      rw [wc_entropy]
      exact Nat.le_max_right _ _
    omega
  have henc : HuffmanTree.encode (some t) ++ rest
      = encodeTopology t
        ++ (EliasDelta.encodeU Universe.umax (treeRange t).min
          ++ (EliasDelta.encodeU (Universe.at_least (treeRange t).min)
                (treeRange t).max
            ++ ((leafChars t).flatMap
                (Binary.encodeU
                  (Universe.ofMinMax (treeRange t).min (treeRange t).max))
              ++ rest))) := by
    rw [HuffmanTree.encode]
    simp only [Universe.ofMinMax_min, Universe.ofMinMax_max, List.append_assoc]
  rw [henc]
  rw [HuffmanTree.decode]
  have hT1 := decodeTopologyF_encode t
    (encodeTopology t
      ++ (EliasDelta.encodeU Universe.umax (treeRange t).min
        ++ (EliasDelta.encodeU (Universe.at_least (treeRange t).min)
              (treeRange t).max
          ++ ((leafChars t).flatMap
              (Binary.encodeU
                (Universe.ofMinMax (treeRange t).min (treeRange t).max))
            ++ rest)))).length
    (EliasDelta.encodeU Universe.umax (treeRange t).min
      ++ (EliasDelta.encodeU (Universe.at_least (treeRange t).min)
            (treeRange t).max
        ++ ((leafChars t).flatMap
            (Binary.encodeU
              (Universe.ofMinMax (treeRange t).min (treeRange t).max))
          ++ rest)))
    (by rw [List.length_append, encodeTopology_length]; omega)
  simp only [hT1]
  rw [if_pos (by
    rw [encodeTopology_length]
    have := numNodes_of_inner hinner
    omega)]
  have hD1 := EliasDelta.decodeU_encodeU_delta Universe.umax
    (show Universe.umax.min ≤ (treeRange t).min by
      rw [Universe.umax_min]; exact Nat.zero_le _)
    (EliasDelta.encodeU (Universe.at_least (treeRange t).min) (treeRange t).max
      ++ ((leafChars t).flatMap
          (Binary.encodeU (Universe.ofMinMax (treeRange t).min (treeRange t).max))
        ++ rest))
  simp only [hD1]
  have hD2 := EliasDelta.decodeU_encodeU_delta (Universe.at_least (treeRange t).min)
    (show (Universe.at_least (treeRange t).min).min ≤ (treeRange t).max by
      rw [Universe.at_least_min]; exact treeRange_min_le_max t)
    ((leafChars t).flatMap
        (Binary.encodeU (Universe.ofMinMax (treeRange t).min (treeRange t).max))
      ++ rest)
  simp only [hD2]
  rw [encodeTopology_length]
  have hNode := decodeNodeF_encode w
    (Universe.ofMinMax (treeRange t).min (treeRange t).max) t hch
    (numNodes t) [] rest le_rfl
  rw [List.append_nil] at hNode
  simp only [hNode]


/-- The codes computed by `operator[]` depend only on the shape and the leaf
characters, so the deserialized tree (frequencies zeroed) gives the same
code for every character. -/
theorem findPath_zeroFreq (t : HTree) (c : Nat) :
    findPath (zeroFreq t) c = findPath t c := by
  induction t with
  | leaf d f => rfl
  | inner f l r ihl ihr =>
    rw [show zeroFreq (HTree.inner f l r)
        = HTree.inner ((zeroFreq l).freq + (zeroFreq r).freq)
            (zeroFreq l) (zeroFreq r) from rfl]
    rw [findPath, findPath, ihl, ihr]

theorem treeLookup_zeroFreq (t : HTree) (c : Nat) :
    treeLookup (some (zeroFreq t)) c = treeLookup (some t) c := by
  simp only [treeLookup, findPath_zeroFreq]

theorem numNodes_zeroFreq (t : HTree) : numNodes (zeroFreq t) = numNodes t := by
  induction t with
  | leaf c f => rfl
  | inner f l r ihl ihr =>
    rw [show zeroFreq (HTree.inner f l r)
        = HTree.inner ((zeroFreq l).freq + (zeroFreq r).freq)
            (zeroFreq l) (zeroFreq r) from rfl]
    rw [numNodes, numNodes, ihl, ihr]

theorem shapeOf_zeroFreq (t : HTree) : shapeOf (zeroFreq t) = shapeOf t := by
  induction t with
  | leaf c f => rfl
  | inner f l r ihl ihr =>
    rw [show zeroFreq (HTree.inner f l r)
        = HTree.inner ((zeroFreq l).freq + (zeroFreq r).freq)
            (zeroFreq l) (zeroFreq r) from rfl]
    rw [shapeOf, shapeOf, ihl, ihr]

/-- C1: for every HuffmanTree built by the histogram constructor from a
non-empty input (characters of a `w`-bit type), decoding the bit stream
produced by `encode` via the bit-source constructor yields exactly the tree
with all frequencies zeroed — hence a tree with the same number of nodes,
the same topology, and, for every character with a leaf in the original
tree, an identical HuffmanCode (same `word` and same `length`). -/
theorem huffman_tree_roundtrip (w : Nat) (input : List Nat) (t : HTree)
    (rest : List Bool) (hc : ∀ c ∈ input, c < 2 ^ w)
    (hbuild : buildFromInput w input = some t) :
    HuffmanTree.decode w (HuffmanTree.encode (some t) ++ rest)
        = some (some (zeroFreq t), rest) ∧
      numNodes (zeroFreq t) = numNodes t ∧
      shapeOf (zeroFreq t) = shapeOf t ∧
      ∀ c ∈ leafChars t,
        treeLookup (some (zeroFreq t)) c = treeLookup (some t) c := by
  have hleaf : ∀ c ∈ leafChars t, c < 2 ^ w := by
    match input with
    | [] => simp [buildFromInput] at hbuild
    | a :: input =>
      obtain ⟨t0, hb0, _, hchars, _⟩ := buildFromInput_spec w a input
      rw [hb0] at hbuild
      obtain rfl : t0 = t := by simpa using hbuild
      intro c hcmem
      rcases (fixupHist_keys w _ c).mp ((hchars c).mp hcmem) with hk | ⟨c0, n0, _, rfl⟩
      · exact hc c ((histogram_keys _ c).mp hk)
      · have : 1 ≤ 2 ^ w := Nat.one_le_two_pow
        omega
  have hinner : t.isLeaf = false := by
    match input with
    | [] => simp [buildFromInput] at hbuild
    | a :: input =>
      obtain ⟨t0, hb0, _, _, hi⟩ := buildFromInput_spec w a input
      rw [hb0] at hbuild
      obtain rfl : t0 = t := by simpa using hbuild
      exact hi
  exact ⟨HuffmanTree.decode_encode_tree w t hleaf hinner rest,
    numNodes_zeroFreq t, shapeOf_zeroFreq t,
    fun c _ => treeLookup_zeroFreq t c⟩

theorem huffman_tree_roundtrip_witness :
    HuffmanTree.decode 8
        (HuffmanTree.encode (some (HTree.inner 4 (HTree.leaf 2 2)
          (HTree.inner 2 (HTree.leaf 1 1) (HTree.leaf 0 1)))) ++ [true])
        = some (some (zeroFreq (HTree.inner 4 (HTree.leaf 2 2)
            (HTree.inner 2 (HTree.leaf 1 1) (HTree.leaf 0 1)))), [true]) ∧
      numNodes (zeroFreq (HTree.inner 4 (HTree.leaf 2 2)
          (HTree.inner 2 (HTree.leaf 1 1) (HTree.leaf 0 1))))
        = numNodes (HTree.inner 4 (HTree.leaf 2 2)
            (HTree.inner 2 (HTree.leaf 1 1) (HTree.leaf 0 1))) ∧
      shapeOf (zeroFreq (HTree.inner 4 (HTree.leaf 2 2)
          (HTree.inner 2 (HTree.leaf 1 1) (HTree.leaf 0 1))))
        = shapeOf (HTree.inner 4 (HTree.leaf 2 2)
            (HTree.inner 2 (HTree.leaf 1 1) (HTree.leaf 0 1))) ∧
      ∀ c ∈ leafChars (HTree.inner 4 (HTree.leaf 2 2)
          (HTree.inner 2 (HTree.leaf 1 1) (HTree.leaf 0 1))),
        treeLookup (some (zeroFreq (HTree.inner 4 (HTree.leaf 2 2)
            (HTree.inner 2 (HTree.leaf 1 1) (HTree.leaf 0 1))))) c
          = treeLookup (some (HTree.inner 4 (HTree.leaf 2 2)
              (HTree.inner 2 (HTree.leaf 1 1) (HTree.leaf 0 1)))) c :=
  huffman_tree_roundtrip 8 [0, 1, 2, 2]
    (HTree.inner 4 (HTree.leaf 2 2) (HTree.inner 2 (HTree.leaf 1 1) (HTree.leaf 0 1)))
    [true] (by decide) (by decide)

end CodePdk
